import Mathlib

/-!
Verification development for the consciousness-simulation core:
the Global Workspace competition/broadcast engine (`global_workspace.py`)
and the recursive meta-cognition engine (`meta_cognition.py`).

Numbers are modelled as exact rationals; wall-clock time is an explicit
parameter `now : ℚ` threaded to every operation that reads the clock.
-/

/-- Model of `Information` (global_workspace.py, `@dataclass class Information`):
a piece of information competing for global workspace access.
Dataclass equality in Python is field-wise, matching `DecidableEq`. -/
structure Information where
  source : String
  content : String
  salience : ℚ
  relevance : ℚ
  timestamp : ℚ
  activation_level : ℚ := 0
deriving DecidableEq, Repr

/-- Model of `Information.get_priority` at wall-clock time `now`:
`salience * 0.4 + relevance * 0.4 + recency * 0.2` with
`recency = 1.0 / (1.0 + (time.time() - timestamp))`. -/
def Information.get_priority (now : ℚ) (info : Information) : ℚ :=
  let recency : ℚ := 1 / (1 + (now - info.timestamp))
  info.salience * 0.4 + info.relevance * 0.4 + recency * 0.2

/-- State of `class GlobalWorkspace`: capacity-bounded active set
(`workspace_contents`) plus the pending `competition_pool`. -/
structure GlobalWorkspace where
  capacity : ℕ
  decay_rate : ℚ
  competition_threshold : ℚ
  workspace_contents : List Information
  competition_pool : List Information
deriving DecidableEq, Repr

/-- Model of `GlobalWorkspace.__init__` with empty active set and pool. -/
def mkWorkspace (capacity : ℕ) (decay_rate competition_threshold : ℚ) :
    GlobalWorkspace :=
  { capacity := capacity
    decay_rate := decay_rate
    competition_threshold := competition_threshold
    workspace_contents := []
    competition_pool := [] }

/-- Python list slice `l[:n]` for an `int` bound `n`, which may be negative:
`l[:n]` is the first `n` elements when `n ≥ 0`, and all but the last `-n`
elements when `n < 0`. -/
def pyTake (n : ℤ) (l : List Information) : List Information :=
  if 0 ≤ n then l.take n.toNat else l.take ((l.length : ℤ) + n).toNat

/-- One step of stable descending insertion by `activation_level`:
an element is placed after every strictly larger one and before equals,
reproducing the tie order of Python's stable `list.sort(..., reverse=True)`. -/
def insertDesc (x : Information) : List Information → List Information
  | [] => [x]
  | y :: ys =>
    if x.activation_level < y.activation_level then y :: insertDesc x ys
    else x :: y :: ys

/-- Model of `self.competition_pool.sort(key=lambda x: x.activation_level, reverse=True)`:
stable sort, descending by `activation_level`. -/
def sortDesc (l : List Information) : List Information :=
  l.foldr insertDesc []

/-- Model of `GlobalWorkspace.submit_information`: store `get_priority()` into
`activation_level` and append to the competition pool. -/
def submit_information (now : ℚ) (ws : GlobalWorkspace) (info : Information) :
    GlobalWorkspace :=
  { ws with competition_pool :=
      ws.competition_pool ++
        [{ info with activation_level := info.get_priority now }] }

/-- The recomputation `info.activation_level = info.get_priority()` done on
every pooled unit at the start of `competition_cycle`. -/
def recompute (now : ℚ) (info : Information) : Information :=
  { info with activation_level := info.get_priority now }

/-- The winner selection loop of `competition_cycle`:
iterate over `pool[:available_slots]` and keep units with
`activation_level >= competition_threshold`. -/
def selectWinners (threshold : ℚ) (available_slots : ℤ)
    (sorted : List Information) : List Information :=
  (pyTake available_slots sorted).filter
    (fun i => decide (threshold ≤ i.activation_level))

/-- Model of `GlobalWorkspace.competition_cycle`: recompute activations, sort the pool
descending, admit up to `capacity - len(workspace_contents)` units meeting
the threshold, remove the winners from the pool, and return the list of
admitted (broadcast) units. -/
def competition_cycle (now : ℚ) (ws : GlobalWorkspace) :
    GlobalWorkspace × List Information :=
  if ws.competition_pool.isEmpty then (ws, [])
  else
    let sorted := sortDesc (ws.competition_pool.map (recompute now))
    let available_slots : ℤ :=
      (ws.capacity : ℤ) - (ws.workspace_contents.length : ℤ)
    let winners := selectWinners ws.competition_threshold available_slots sorted
    ({ ws with
        workspace_contents := ws.workspace_contents ++ winners
        competition_pool := sorted.filter (fun i => decide (i ∉ winners)) },
     winners)

/-- Model of `GlobalWorkspace.decay_workspace`: multiply every active unit's activation
by `(1 - decay_rate)`, then keep only units with `activation_level > 0.2`. -/
def decay_workspace (ws : GlobalWorkspace) : GlobalWorkspace :=
  let decayed := ws.workspace_contents.map
    (fun i => { i with activation_level := i.activation_level * (1 - ws.decay_rate) })
  { ws with workspace_contents :=
      decayed.filter (fun i => decide ((0.2 : ℚ) < i.activation_level)) }

/-- Model of `GlobalWorkspace.process_cycle`: submit every unit drained from the
processors, run `competition_cycle`, then `decay_workspace`; returns the new
state together with the broadcast units of this cycle. -/
def process_cycle (now : ℚ) (subs : List Information) (ws : GlobalWorkspace) :
    GlobalWorkspace × List Information :=
  let ws1 := subs.foldl (fun w i => submit_information now w i) ws
  let (ws2, broadcasts) := competition_cycle now ws1
  (decay_workspace ws2, broadcasts)

/-- The externally invokable operations on a `GlobalWorkspace`. -/
inductive WsOp where
  | submit (now : ℚ) (info : Information)
  | compete (now : ℚ)
  | decay
  | cycle (now : ℚ) (subs : List Information)

/-- Apply one operation to the workspace state. -/
def stepOp (ws : GlobalWorkspace) : WsOp → GlobalWorkspace
  | .submit now info => submit_information now ws info
  | .compete now => (competition_cycle now ws).1
  | .decay => decay_workspace ws
  | .cycle now subs => (process_cycle now subs ws).1

/-- Run a sequence of workspace operations from a given state. -/
def runOps (ws : GlobalWorkspace) (ops : List WsOp) : GlobalWorkspace :=
  ops.foldl stepOp ws

/-- Model of `Thought` (meta_cognition.py): a single thought in the consciousness
stream, tagged with its recursion `level`. -/
structure Thought where
  level : ℕ
  content : String
  timestamp : ℚ
  thought_type : String
deriving DecidableEq, Repr

/-- Model of `class WorkingMemory`: bounded buffer of thoughts with a parallel list
of attention weights. -/
structure WorkingMemory where
  capacity : ℕ
  buffer : List Thought
  attention_weights : List ℚ
deriving DecidableEq, Repr

/-- Model of `WorkingMemory.__init__(capacity)`. -/
def WorkingMemory.empty (capacity : ℕ) : WorkingMemory :=
  { capacity := capacity, buffer := [], attention_weights := [] }

/-- Model of `WorkingMemory.add`: append thought and weight, then pop the oldest of
each if the buffer exceeds capacity. -/
def WorkingMemory.add (wm : WorkingMemory) (t : Thought) (attention : ℚ) :
    WorkingMemory :=
  let buf := wm.buffer ++ [t]
  let wts := wm.attention_weights ++ [attention]
  if wm.capacity < buf.length then
    { wm with buffer := buf.drop 1, attention_weights := wts.drop 1 }
  else
    { wm with buffer := buf, attention_weights := wts }

/-- Model of `WorkingMemory.clear`. -/
def WorkingMemory.clearAll (wm : WorkingMemory) : WorkingMemory :=
  { wm with buffer := [], attention_weights := [] }

/-- Model of `WorkingMemory.get_recent(n)`, i.e. `self.buffer[-n:]` (for `n = 0` the
Python slice `[-0:]` is the whole buffer). -/
def WorkingMemory.get_recent (wm : WorkingMemory) (n : ℕ) : List Thought :=
  if n = 0 then wm.buffer else wm.buffer.drop (wm.buffer.length - n)

/-- Model of `WorkingMemory.get_attended(n)`: stable-sort the zipped
(buffer, weights) pairs descending by weight, take `n`, return the
thoughts.  A pure reader; it does not mutate the state. -/
def WorkingMemory.get_attended (wm : WorkingMemory) (n : ℕ) : List Thought :=
  if wm.buffer.isEmpty then []
  else
    (((wm.buffer.zip wm.attention_weights).mergeSort
      (fun a b => decide (b.2 ≤ a.2))).take n).map Prod.fst

/-- The operation `WorkingMemory.add` folded over a list of (thought, weight) pairs. -/
def addAll (wm : WorkingMemory) (ps : List (Thought × ℚ)) : WorkingMemory :=
  ps.foldl (fun w p => w.add p.1 p.2) wm

/-- The attention weight computed at recursion depth `d` in
`process_with_true_recursion`: `max(0.2, 1.0 - (depth * 0.2))`. -/
def attention_weight (depth : ℕ) : ℚ :=
  max 0.2 (1 - (depth : ℚ) * 0.2)

/-- The reflection prompt built at depth `d` from the current thought
(`thought[:150]` spliced into the depth-keyed template). -/
def promptFor (depth : ℕ) (thought : String) : String :=
  let t := thought.take 150
  if depth = 0 then
    "Response: \"" ++ t ++ "...\"\n\nMeta-observation (8 words max): What aspect of this response stands out most to you?"
  else if depth = 1 then
    "You noticed: \"" ++ t ++ "...\"\n\nMeta-evaluation (8 words max): Rate confidence in this observation (0-10) and explain briefly:"
  else if depth = 2 then
    "You evaluated: \"" ++ t ++ "...\"\n\nMeta-introspection (10 words max): What cognitive pattern or bias might explain this evaluation?"
  else
    "Reflect on: \"" ++ t ++ "...\"\n\nBrief meta-thought (8 words max):"

/-- The `next_type` tag chosen at depth `d`. -/
def nextTypeFor (depth : ℕ) : String :=
  if depth = 0 then "observation"
  else if depth = 1 then "evaluation"
  else if depth = 2 then "introspection"
  else "meta-" ++ toString depth

/-- One node of the nested dictionary returned by
`process_with_true_recursion`: keys `level`, `content`, `type`,
`meta_reflection`. -/
inductive MetaNode where
  | mk (level : ℕ) (content : String) (type : String)
      (meta_reflection : Option MetaNode)
deriving Repr

def MetaNode.level : MetaNode → ℕ
  | .mk l _ _ _ => l

def MetaNode.content : MetaNode → String
  | .mk _ c _ _ => c

def MetaNode.type : MetaNode → String
  | .mk _ _ ty _ => ty

def MetaNode.meta_reflection : MetaNode → Option MetaNode
  | .mk _ _ _ m => m

/-- Recursion core of `process_with_true_recursion`, structurally recursive
on the remaining depth budget `gas = max_depth - depth`: `gas = 0` is
exactly the Python base case `depth >= self.max_depth`, and each recursive
call at `depth + 1` has budget `gas - 1`. -/
def processGo (tclock : ℕ → ℚ) (gen : String → ℕ → String) (gas : ℕ)
    (thought : String) (ttype : String) (depth : ℕ) (wm : WorkingMemory)
    (stream : List Thought) : WorkingMemory × List Thought × MetaNode :=
  match gas with
  | 0 => (wm, stream, .mk depth thought ttype none)
  | g + 1 =>
    let current : Thought :=
      { level := depth, content := thought, timestamp := tclock depth
        thought_type := ttype }
    let wm' := wm.add current (attention_weight depth)
    let stream' := stream ++ [current]
    let meta_thought := gen (promptFor depth thought) 30
    let r := processGo tclock gen g meta_thought (nextTypeFor depth)
      (depth + 1) wm' stream'
    (r.1, r.2.1, .mk depth thought ttype (some r.2.2))

/-- Model of `RecursiveMetaCognition.process_with_true_recursion`.
`maxd` is `self.max_depth`; `tclock d` is the wall-clock time observed by
the call at depth `d`; `gen prompt len` is `llm_generator(prompt,
max_length=len)`.  Returns the updated working memory, the updated
consciousness stream, and the nested result.  The recursion is driven by
the budget `maxd - depth`, which is `0` exactly when Python's base-case
guard `depth >= self.max_depth` fires. -/
def process_with_true_recursion (maxd : ℕ) (tclock : ℕ → ℚ)
    (gen : String → ℕ → String) (thought : String) (ttype : String)
    (depth : ℕ) (wm : WorkingMemory) (stream : List Thought) :
    WorkingMemory × List Thought × MetaNode :=
  processGo tclock gen (maxd - depth) thought ttype depth wm stream

/-- Model of `RecursiveMetaCognition.flatten_recursive_results`: pre-order traversal
emitting `(level, type, content)` triples. -/
def flatten_recursive_results : MetaNode → List (ℕ × String × String)
  | .mk l c ty none => [(l, ty, c)]
  | .mk l c ty (some m) => (l, ty, c) :: flatten_recursive_results m

/-- Walk `d` `meta_reflection` links down from a node. -/
def nodeAt : MetaNode → ℕ → Option MetaNode
  | n, 0 => some n
  | n, d + 1 =>
    match n.meta_reflection with
    | none => none
    | some m => nodeAt m d

/-- Depth increases by exactly 1 along every `meta_reflection` link. -/
def linksIncrement : MetaNode → Prop
  | .mk _ _ _ none => True
  | .mk l _ _ (some m) => m.level = l + 1 ∧ linksIncrement m

/-- The deepest node reachable along `meta_reflection` links. -/
def deepest : MetaNode → MetaNode
  | .mk l c ty none => .mk l c ty none
  | .mk _ _ _ (some m) => deepest m

/-- Recursion core of the fallible variant below, structurally recursive on
the remaining depth budget, exactly parallel to `processGo`. -/
def processGoE (tclock : ℕ → ℚ) (gen : String → ℕ → Except String String)
    (gas : ℕ) (thought : String) (ttype : String) (depth : ℕ)
    (wm : WorkingMemory) (stream : List Thought) :
    Except String (WorkingMemory × List Thought × MetaNode) :=
  match gas with
  | 0 => .ok (wm, stream, .mk depth thought ttype none)
  | g + 1 =>
    let current : Thought :=
      { level := depth, content := thought, timestamp := tclock depth
        thought_type := ttype }
    let wm' := wm.add current (attention_weight depth)
    let stream' := stream ++ [current]
    match gen (promptFor depth thought) 30 with
    | .error e => .error e
    | .ok meta_thought =>
      match processGoE tclock gen g meta_thought (nextTypeFor depth)
        (depth + 1) wm' stream' with
      | .error e => .error e
      | .ok r => .ok (r.1, r.2.1, .mk depth thought ttype (some r.2.2))

/-- Model of `process_with_true_recursion` with a fallible reflection generator:
the Python call `meta_thought = llm_generator(reflection_prompt,
max_length=30)` sits in no try/except, so a raised exception aborts the
frame and propagates; `Except.error` models the raised exception. -/
def process_with_true_recursionE (maxd : ℕ) (tclock : ℕ → ℚ)
    (gen : String → ℕ → Except String String) (thought : String)
    (ttype : String) (depth : ℕ) (wm : WorkingMemory)
    (stream : List Thought) :
    Except String (WorkingMemory × List Thought × MetaNode) :=
  processGoE tclock gen (maxd - depth) thought ttype depth wm stream

/-! ### Sorting lemmas -/

/-- Membership in `insertDesc`. -/
theorem mem_insertDesc {a x : Information} {l : List Information} :
    a ∈ insertDesc x l ↔ a = x ∨ a ∈ l := by
  induction l with
  | nil => simp [insertDesc]
  | cons y ys ih =>
    by_cases h : x.activation_level < y.activation_level
    · simp only [insertDesc, if_pos h, List.mem_cons, ih]
      tauto
    · simp only [insertDesc, if_neg h, List.mem_cons]

/-- Membership is preserved by `sortDesc`. -/
theorem mem_sortDesc {a : Information} {l : List Information} :
    a ∈ sortDesc l ↔ a ∈ l := by
  induction l with
  | nil => simp [sortDesc]
  | cons y ys ih =>
    simp only [sortDesc, List.foldr_cons] at *
    rw [show List.foldr insertDesc [] ys = sortDesc ys from rfl] at *
    simp [mem_insertDesc, ih]

/-- The step `insertDesc` preserves descending sortedness. -/
theorem pairwise_insertDesc {x : Information} {l : List Information}
    (h : l.Pairwise (fun a b => b.activation_level ≤ a.activation_level)) :
    (insertDesc x l).Pairwise
      (fun a b => b.activation_level ≤ a.activation_level) := by
  induction l with
  | nil => simp [insertDesc]
  | cons y ys ih =>
    rcases List.pairwise_cons.mp h with ⟨hy, hys⟩
    by_cases hxy : x.activation_level < y.activation_level
    · simp only [insertDesc, if_pos hxy]
      refine List.pairwise_cons.mpr ⟨?_, ih hys⟩
      intro b hb
      rcases mem_insertDesc.mp hb with rfl | hb
      · exact le_of_lt hxy
      · exact hy b hb
    · simp only [insertDesc, if_neg hxy]
      refine List.pairwise_cons.mpr ⟨?_, h⟩
      intro b hb
      rcases List.mem_cons.mp hb with rfl | hb
      · exact le_of_not_lt hxy
      · exact le_trans (hy b hb) (le_of_not_lt hxy)

/-- The sorted pool is descending in `activation_level`. -/
theorem sortDesc_sorted (l : List Information) :
    (sortDesc l).Pairwise
      (fun a b => b.activation_level ≤ a.activation_level) := by
  induction l with
  | nil => simp [sortDesc]
  | cons y ys ih => exact pairwise_insertDesc ih

/-! ### Capacity invariant (C1) -/

/-- For a nonnegative bound the Python slice is an ordinary `take`. -/
theorem pyTake_of_nonneg {n : ℤ} (h : 0 ≤ n) (l : List Information) :
    pyTake n l = l.take n.toNat := by
  simp [pyTake, h]

/-- The cycle `competition_cycle` appends its winners to the active set. -/
theorem competition_cycle_contents (now : ℚ) (ws : GlobalWorkspace) :
    (competition_cycle now ws).1.workspace_contents =
      ws.workspace_contents ++ (competition_cycle now ws).2 := by
  unfold competition_cycle
  by_cases h : ws.competition_pool.isEmpty <;> simp [h]

/-- The cycle `competition_cycle` leaves the configuration fields unchanged. -/
theorem competition_cycle_config (now : ℚ) (ws : GlobalWorkspace) :
    (competition_cycle now ws).1.capacity = ws.capacity ∧
    (competition_cycle now ws).1.decay_rate = ws.decay_rate ∧
    (competition_cycle now ws).1.competition_threshold =
      ws.competition_threshold := by
  unfold competition_cycle
  by_cases h : ws.competition_pool.isEmpty <;> simp [h]

/-- The number of winners never exceeds the free capacity slots. -/
theorem winners_length_le (now : ℚ) (ws : GlobalWorkspace)
    (h : ws.workspace_contents.length ≤ ws.capacity) :
    (competition_cycle now ws).2.length ≤
      ws.capacity - ws.workspace_contents.length := by
  unfold competition_cycle
  by_cases hp : ws.competition_pool.isEmpty
  · simp [hp]
  · have hnn : (0 : ℤ) ≤ (ws.capacity : ℤ) - (ws.workspace_contents.length : ℤ) := by
      omega
    simp only [hp, Bool.false_eq_true, if_false]
    calc (selectWinners ws.competition_threshold _ _).length
        ≤ (pyTake ((ws.capacity : ℤ) - (ws.workspace_contents.length : ℤ))
            (sortDesc (ws.competition_pool.map (recompute now)))).length :=
          List.length_filter_le _ _
      _ ≤ ws.capacity - ws.workspace_contents.length := by
          rw [pyTake_of_nonneg hnn]
          calc (List.take _ _).length ≤ _ := List.length_take_le _ _
            _ = ws.capacity - ws.workspace_contents.length := by omega

/-- Submitting drained processor outputs changes neither the active set nor
the configuration. -/
theorem submit_foldl_fields (now : ℚ) (subs : List Information)
    (ws : GlobalWorkspace) :
    (subs.foldl (fun w i => submit_information now w i) ws).capacity =
        ws.capacity ∧
    (subs.foldl (fun w i => submit_information now w i) ws).decay_rate =
        ws.decay_rate ∧
    (subs.foldl (fun w i => submit_information now w i) ws).competition_threshold =
        ws.competition_threshold ∧
    (subs.foldl (fun w i => submit_information now w i) ws).workspace_contents =
        ws.workspace_contents := by
  induction subs generalizing ws with
  | nil => exact ⟨rfl, rfl, rfl, rfl⟩
  | cons i is ih => simpa using ih (submit_information now ws i)

/-- Decay never grows the active set. -/
theorem decay_length_le (ws : GlobalWorkspace) :
    (decay_workspace ws).workspace_contents.length ≤
      ws.workspace_contents.length := by
  calc (decay_workspace ws).workspace_contents.length
      ≤ (ws.workspace_contents.map _).length := List.length_filter_le _ _
    _ = ws.workspace_contents.length := List.length_map _ _

/-- Each operation preserves the capacity bound (and the capacity field). -/
theorem stepOp_inv (ws : GlobalWorkspace) (op : WsOp)
    (h : ws.workspace_contents.length ≤ ws.capacity) :
    (stepOp ws op).workspace_contents.length ≤ (stepOp ws op).capacity ∧
    (stepOp ws op).capacity = ws.capacity := by
  cases op with
  | submit now info => exact ⟨h, rfl⟩
  | compete now =>
    have hw := winners_length_le now ws h
    have hc := competition_cycle_contents now ws
    have hcap := (competition_cycle_config now ws).1
    refine ⟨?_, hcap⟩
    show (competition_cycle now ws).1.workspace_contents.length ≤
      (competition_cycle now ws).1.capacity
    rw [hc, hcap, List.length_append]
    omega
  | decay => exact ⟨le_trans (decay_length_le ws) h, rfl⟩
  | cycle now subs =>
    simp only [stepOp, process_cycle]
    set ws1 := subs.foldl (fun w i => submit_information now w i) ws with hws1
    have h1 := submit_foldl_fields now subs ws
    have hlen1 : ws1.workspace_contents.length ≤ ws1.capacity := by
      rw [h1.1, h1.2.2.2]; exact h
    have hw := winners_length_le now ws1 hlen1
    have hc := competition_cycle_contents now ws1
    have hcap := (competition_cycle_config now ws1).1
    constructor
    · calc (decay_workspace (competition_cycle now ws1).1).workspace_contents.length
          ≤ (competition_cycle now ws1).1.workspace_contents.length :=
            decay_length_le _
        _ ≤ (competition_cycle now ws1).1.capacity := by
            rw [hc, hcap, List.length_append]; omega
        _ = (decay_workspace (competition_cycle now ws1).1).capacity := rfl
    · calc (decay_workspace (competition_cycle now ws1).1).capacity
          = (competition_cycle now ws1).1.capacity := rfl
        _ = ws1.capacity := hcap
        _ = ws.capacity := h1.1

/-- C1. For every `GlobalWorkspace` constructed with `capacity ≥ 1` and
every sequence of `submit_information`, `competition_cycle`,
`decay_workspace` and `process_cycle` calls starting from the empty
workspace, the active set `workspace_contents` never exceeds `capacity`
(in particular after every `process_cycle` call, which is a prefix of such
a sequence). -/
theorem workspace_capacity_invariant (c : ℕ) (r t : ℚ) (hc : 1 ≤ c)
    (ops : List WsOp) :
    (runOps (mkWorkspace c r t) ops).workspace_contents.length ≤ c := by
  suffices h : ∀ (ws : GlobalWorkspace), ws.workspace_contents.length ≤ ws.capacity →
      (runOps ws ops).workspace_contents.length ≤ (runOps ws ops).capacity ∧
      (runOps ws ops).capacity = ws.capacity by
    have := h (mkWorkspace c r t) (by simp [mkWorkspace])
    rcases this with ⟨h1, h2⟩
    have h2' : (runOps (mkWorkspace c r t) ops).capacity = c := h2
    omega
  induction ops with
  | nil => intro ws hws; exact ⟨hws, rfl⟩
  | cons op rest ih =>
    intro ws hws
    have hstep := stepOp_inv ws op hws
    have := ih (stepOp ws op) hstep.1
    exact ⟨this.1, this.2.trans hstep.2⟩

/-! ### Admission rule (C3) and pool retention (C6) -/

/-- On a descending-sorted list, filtering a prefix by the threshold equals
truncating the longest threshold-satisfying prefix: the winner loop
(`take` then `filter`) admits exactly the longest admissible prefix cut to
the free slots. -/
theorem filter_take_eq_take_takeWhile (t : ℚ) (l : List Information)
    (hl : l.Pairwise (fun a b => b.activation_level ≤ a.activation_level))
    (n : ℕ) :
    (l.take n).filter (fun i => decide (t ≤ i.activation_level)) =
      (l.takeWhile (fun i => decide (t ≤ i.activation_level))).take n := by
  induction l generalizing n with
  | nil => simp
  | cons x xs ih =>
    rcases List.pairwise_cons.mp hl with ⟨hx, hxs⟩
    cases n with
    | zero => simp
    | succ m =>
      by_cases hxt : t ≤ x.activation_level
      · simp only [List.take_succ_cons, List.filter_cons, decide_eq_true_eq,
          if_pos hxt, List.takeWhile_cons, hxt, decide_True, if_true,
          List.take_succ_cons]
        rw [ih hxs m]
      · have hall : ∀ y ∈ xs.take m,
            ¬ (t ≤ y.activation_level) := by
          intro y hy
          have hyx := hx y (List.mem_of_mem_take hy)
          intro hty
          exact hxt (le_trans hty hyx)
        simp only [List.take_succ_cons, List.filter_cons, List.takeWhile_cons,
          hxt, decide_False, Bool.false_eq_true, if_false, List.take_nil]
        rw [List.filter_eq_nil_iff]
        intro y hy
        simpa using hall y hy

/-- C3. A unit whose recomputed activation is strictly below
`competition_threshold` is never admitted by the cycle in which it
competes, and the admitted units are exactly the longest prefix of the
descending-sorted pool meeting the threshold, truncated to the free
capacity slots. -/
theorem admission_threshold (now : ℚ) (ws : GlobalWorkspace)
    (hlen : ws.workspace_contents.length ≤ ws.capacity) :
    (competition_cycle now ws).2 =
      ((sortDesc (ws.competition_pool.map (recompute now))).takeWhile
        (fun i => decide (ws.competition_threshold ≤ i.activation_level))).take
        (ws.capacity - ws.workspace_contents.length) ∧
    ∀ u ∈ ws.competition_pool.map (recompute now),
      u.activation_level < ws.competition_threshold →
      u ∉ (competition_cycle now ws).2 ∧
      (u ∉ ws.workspace_contents →
        u ∉ (competition_cycle now ws).1.workspace_contents) := by
  have hwin : (competition_cycle now ws).2 =
      ((sortDesc (ws.competition_pool.map (recompute now))).takeWhile
        (fun i => decide (ws.competition_threshold ≤ i.activation_level))).take
        (ws.capacity - ws.workspace_contents.length) := by
    unfold competition_cycle
    by_cases hp : ws.competition_pool.isEmpty
    · have : ws.competition_pool = [] := List.isEmpty_iff.mp hp
      simp [hp, this, sortDesc]
    · have hnn : (0 : ℤ) ≤ (ws.capacity : ℤ) - (ws.workspace_contents.length : ℤ) := by
        omega
    
      simp only [hp, Bool.false_eq_true, if_false]
      show selectWinners _ _ _ = _
      unfold selectWinners
      rw [pyTake_of_nonneg hnn]
      have htoNat : ((ws.capacity : ℤ) - (ws.workspace_contents.length : ℤ)).toNat =
          ws.capacity - ws.workspace_contents.length := by omega
      rw [htoNat]
      exact filter_take_eq_take_takeWhile ws.competition_threshold _
        (sortDesc_sorted _) _
  refine ⟨hwin, ?_⟩
  intro u hu hub
  have hnot : u ∉ (competition_cycle now ws).2 := by
    rw [hwin]
    intro hmem
    have h1 : u ∈ (sortDesc (ws.competition_pool.map (recompute now))).takeWhile
        (fun i => decide (ws.competition_threshold ≤ i.activation_level)) :=
      List.mem_of_mem_take hmem
    have h2 := List.mem_takeWhile_imp h1
    simp only [decide_eq_true_eq] at h2
    exact absurd h2 (not_le.mpr hub)
  refine ⟨hnot, ?_⟩
  intro hnc hmem
  rw [competition_cycle_contents] at hmem
  rcases List.mem_append.mp hmem with h | h
  · exact hnc h
  · exact hnot h

/-- C6. Units that compete but are not admitted remain in the competition
pool (retried next cycle, not discarded): after a cycle the pool holds
exactly the recomputed units that were not admitted. -/
theorem pool_retention (now : ℚ) (ws : GlobalWorkspace) :
    (∀ u, u ∈ (competition_cycle now ws).1.competition_pool ↔
      (u ∈ ws.competition_pool.map (recompute now) ∧
        u ∉ (competition_cycle now ws).2)) ∧
    (competition_cycle now ws).1.competition_pool =
      (sortDesc (ws.competition_pool.map (recompute now))).filter
        (fun i => decide (i ∉ (competition_cycle now ws).2)) := by
  by_cases hp : ws.competition_pool.isEmpty
  · have hnil : ws.competition_pool = [] := List.isEmpty_iff.mp hp
    constructor
    · intro u
      simp [competition_cycle, hp, hnil]
    · simp [competition_cycle, hp, hnil, sortDesc]
  · have hpool : (competition_cycle now ws).1.competition_pool =
        (sortDesc (ws.competition_pool.map (recompute now))).filter
          (fun i => decide (i ∉ (competition_cycle now ws).2)) := by
      conv_lhs => unfold competition_cycle
      conv_rhs => rw [show (competition_cycle now ws).2 =
        (competition_cycle now ws).2 from rfl]
      unfold competition_cycle
      simp only [hp, Bool.false_eq_true, if_false]
    refine ⟨?_, hpool⟩
    intro u
    rw [hpool]
    simp only [List.mem_filter, decide_eq_true_eq, mem_sortDesc]

/-! ### Decay monotonicity (C4) -/

/-- A concrete unit with activation `1/2`, used for the decay
counterexample. -/
def uZeroDecay : Information :=
  { source := "s", content := "c", salience := 1, relevance := 1,
    timestamp := 0, activation_level := 1/2 }

/-- A workspace with `decay_rate = 0` (inside the claimed range `[0,1)`)
holding one active unit with activation `1/2`. -/
def wsZeroDecay : GlobalWorkspace :=
  { capacity := 3, decay_rate := 0, competition_threshold := 1/2,
    workspace_contents := [uZeroDecay], competition_pool := [] }

/-- Counterexample to C4 as stated: with `decay_rate = 0` (which lies in
the claimed range `[0,1)`) `decay_workspace` is the identity, so the
active unit's activation never strictly decreases and it is never
evicted. -/
theorem decay_monotonicity_cex : decay_workspace wsZeroDecay = wsZeroDecay := by
  simp only [decay_workspace, wsZeroDecay, uZeroDecay]
  norm_num

/-- Every unit surviving a decay step has activation strictly above the
`0.2` floor. -/
theorem decay_mem_floor (ws : GlobalWorkspace) :
    ∀ u ∈ (decay_workspace ws).workspace_contents,
      (0.2 : ℚ) < u.activation_level := by
  intro u hu
  unfold decay_workspace at hu
  have := (List.mem_filter.mp hu).2
  simpa using this

/-- Iterated decay preserves the decay rate. -/
theorem decay_iter_rate (ws : GlobalWorkspace) (n : ℕ) :
    (decay_workspace^[n] ws).decay_rate = ws.decay_rate := by
  induction n with
  | zero => rfl
  | succ m ih =>
    rw [Function.iterate_succ_apply']
    simpa [decay_workspace] using ih

/-- Shape of membership after one decay step: a survivor is a unit of the
previous state with its activation scaled by `(1 - decay_rate)`. -/
theorem decay_mem_shape (ws : GlobalWorkspace) :
    ∀ u ∈ (decay_workspace ws).workspace_contents,
      ∃ w ∈ ws.workspace_contents,
        u.activation_level = w.activation_level * (1 - ws.decay_rate) := by
  intro u hu
  unfold decay_workspace at hu
  have hu' := (List.mem_filter.mp hu).1
  rcases List.mem_map.mp hu' with ⟨w, hw, rfl⟩
  exact ⟨w, hw, rfl⟩

/-- After `n` decay steps every surviving unit's activation is the original
activation of some unit scaled by `(1 - decay_rate)^n`. -/
theorem decay_iter_mem (ws : GlobalWorkspace) (n : ℕ) :
    ∀ u ∈ (decay_workspace^[n] ws).workspace_contents,
      ∃ v ∈ ws.workspace_contents,
        u.activation_level =
          v.activation_level * (1 - ws.decay_rate) ^ n := by
  induction n with
  | zero =>
    intro u hu
    exact ⟨u, hu, by simp⟩
  | succ m ih =>
    intro u hu
    rw [Function.iterate_succ_apply'] at hu
    rcases decay_mem_shape _ u hu with ⟨w, hw, hws⟩
    rcases ih w hw with ⟨v, hv, hval⟩
    refine ⟨v, hv, ?_⟩
    rw [hws, decay_iter_rate, hval]
    ring

/-- With `0 < decay_rate < 1` there is a uniform number of decay steps after
which every listed activation has fallen to the floor or below. -/
theorem exists_decay_bound (r : ℚ) (h0 : 0 < r) (h1 : r < 1)
    (l : List Information) :
    ∃ n, ∀ v ∈ l, v.activation_level * (1 - r) ^ n ≤ 0.2 := by
  have hr0 : (0 : ℚ) ≤ 1 - r := by linarith
  have hr1 : (1 : ℚ) - r < 1 := by linarith
  induction l with
  | nil => exact ⟨0, by simp⟩
  | cons v vs ih =>
    rcases ih with ⟨n1, hn1⟩
    by_cases hv : v.activation_level ≤ 0
    · refine ⟨n1, ?_⟩
      intro w hw
      rcases List.mem_cons.mp hw with rfl | hw
      · exact le_trans (mul_nonpos_of_nonpos_of_nonneg hv (pow_nonneg hr0 n1))
          (by norm_num)
      · exact hn1 w hw
    · push_neg at hv
      rcases exists_pow_lt_of_lt_one
        (div_pos (by norm_num : (0:ℚ) < 0.2) hv) hr1 with ⟨n2, hn2⟩
      refine ⟨max n1 n2, ?_⟩
      intro w hw
      have hpowle : ∀ m, m ≤ max n1 n2 →
          (1 - r) ^ (max n1 n2) ≤ (1 - r) ^ m := by
        intro m hm
        exact pow_le_pow_of_le_one hr0 (by linarith) hm
      rcases List.mem_cons.mp hw with rfl | hw
      · have h2 : w.activation_level * (1 - r) ^ n2 ≤ 0.2 := by
          have h' : (1 - r) ^ n2 * w.activation_level < 0.2 :=
            (lt_div_iff₀ hv).mp hn2
          rw [mul_comm] at h'
          exact le_of_lt h' 
        calc w.activation_level * (1 - r) ^ (max n1 n2)
            ≤ w.activation_level * (1 - r) ^ n2 :=
              mul_le_mul_of_nonneg_left (hpowle n2 (le_max_right _ _))
                (le_of_lt hv)
          _ ≤ 0.2 := h2
      · by_cases hw0 : w.activation_level ≤ 0
        · exact le_trans
            (mul_nonpos_of_nonpos_of_nonneg hw0 (pow_nonneg hr0 _))
            (by norm_num)
        · push_neg at hw0
          calc w.activation_level * (1 - r) ^ (max n1 n2)
              ≤ w.activation_level * (1 - r) ^ n1 :=
                mul_le_mul_of_nonneg_left (hpowle n1 (le_max_left _ _))
                  (le_of_lt hw0)
            _ ≤ 0.2 := hn1 w hw

/-- C4 (amended). For `0 < decay_rate < 1`: `decay_workspace` scales every
active unit's activation by `(1 - decay_rate)` and evicts exactly those at
or below the floor `0.2`; every survivor's activation strictly decreased;
and, absent re-admission, repeated decay eventually evicts every unit. -/
theorem decay_monotonicity_amended (ws : GlobalWorkspace)
    (h0 : 0 < ws.decay_rate) (h1 : ws.decay_rate < 1) :
    (decay_workspace ws).workspace_contents =
      (ws.workspace_contents.map
        (fun i => { i with activation_level :=
          i.activation_level * (1 - ws.decay_rate) })).filter
        (fun i => decide ((0.2 : ℚ) < i.activation_level)) ∧
    (∀ u ∈ ws.workspace_contents,
      (0.2 : ℚ) < u.activation_level * (1 - ws.decay_rate) →
        u.activation_level * (1 - ws.decay_rate) < u.activation_level) ∧
    (∀ u ∈ (decay_workspace ws).workspace_contents,
      (0.2 : ℚ) < u.activation_level) ∧
    ∃ n, (decay_workspace^[n] ws).workspace_contents = [] := by
  have hr0 : (0 : ℚ) < 1 - ws.decay_rate := by linarith
  refine ⟨rfl, ?_, decay_mem_floor ws, ?_⟩
  · intro u _ hfloor
    have hupos : 0 < u.activation_level := by
      by_contra hneg
      push_neg at hneg
      have : u.activation_level * (1 - ws.decay_rate) ≤ 0 :=
        mul_nonpos_of_nonpos_of_nonneg hneg (le_of_lt hr0)
      have : (0.2 : ℚ) ≤ 0 := le_trans (le_of_lt hfloor) this
      norm_num at this
    calc u.activation_level * (1 - ws.decay_rate)
        < u.activation_level * 1 := by
          exact mul_lt_mul_of_pos_left (by linarith) hupos
      _ = u.activation_level := mul_one _
  · rcases exists_decay_bound ws.decay_rate h0 h1 ws.workspace_contents
      with ⟨n, hn⟩
    refine ⟨n + 1, ?_⟩
    rw [List.eq_nil_iff_forall_not_mem]
    intro u hu
    rcases decay_iter_mem ws (n + 1) u hu with ⟨v, hv, hval⟩
    rw [Function.iterate_succ_apply'] at hu
    have hfloor : (0.2 : ℚ) < u.activation_level :=
      decay_mem_floor (decay_workspace^[n] ws) u hu
    have hle : u.activation_level ≤ 0.2 := by
      rw [hval, pow_succ, ← mul_assoc]
      calc v.activation_level * (1 - ws.decay_rate) ^ n * (1 - ws.decay_rate)
          ≤ (0.2 : ℚ) * (1 - ws.decay_rate) :=
            mul_le_mul_of_nonneg_right (hn v hv) (le_of_lt hr0)
        _ ≤ (0.2 : ℚ) * 1 := by
            exact mul_le_mul_of_nonneg_left (by linarith) (by norm_num)
        _ = 0.2 := mul_one _
    linarith

/-- A workspace with `decay_rate = 1/2` holding one active unit, used to
witness the amended decay theorem. -/
def wsHalfDecay : GlobalWorkspace :=
  { capacity := 3, decay_rate := 1/2, competition_threshold := 1/2,
    workspace_contents := [uZeroDecay], competition_pool := [] }

/-- Witness for the amended C4 theorem at `decay_rate = 1/2`. -/
theorem decay_monotonicity_amended_witness :
    ∃ n, (decay_workspace^[n] wsHalfDecay).workspace_contents = [] :=
  (decay_monotonicity_amended wsHalfDecay (by norm_num [wsHalfDecay])
    (by norm_num [wsHalfDecay])).2.2.2

/-! ### Recursion structure (C2, C5, C10) -/

/-- The root node returned by `processGo` carries the call's own thought,
type and depth. -/
theorem processGo_root (tclock : ℕ → ℚ) (gen : String → ℕ → String)
    (gas : ℕ) (th ty : String) (d : ℕ) (wm : WorkingMemory)
    (st : List Thought) :
    (processGo tclock gen gas th ty d wm st).2.2.level = d ∧
    (processGo tclock gen gas th ty d wm st).2.2.content = th ∧
    (processGo tclock gen gas th ty d wm st).2.2.type = ty := by
  cases gas <;> exact ⟨rfl, rfl, rfl⟩

/-- Flattening the result of `processGo` yields levels
`d, d+1, ..., d+gas` in order. -/
theorem processGo_flatten_levels (tclock : ℕ → ℚ)
    (gen : String → ℕ → String) (gas : ℕ) :
    ∀ (th ty : String) (d : ℕ) (wm : WorkingMemory) (st : List Thought),
    (flatten_recursive_results
        (processGo tclock gen gas th ty d wm st).2.2).map (fun p => p.1) =
      List.range' d (gas + 1) := by
  induction gas with
  | zero =>
    intro th ty d wm st
    simp [processGo, flatten_recursive_results, List.range']
  | succ g ih =>
    intro th ty d wm st
    simp only [processGo, flatten_recursive_results, List.map_cons]
    rw [ih, ← List.range'_succ]

/-- The deepest node of a `processGo` result has no further reflection. -/
theorem processGo_deepest (tclock : ℕ → ℚ) (gen : String → ℕ → String)
    (gas : ℕ) :
    ∀ (th ty : String) (d : ℕ) (wm : WorkingMemory) (st : List Thought),
    (deepest (processGo tclock gen gas th ty d wm st).2.2).meta_reflection =
      none := by
  induction gas with
  | zero => intro th ty d wm st; rfl
  | succ g ih =>
    intro th ty d wm st
    simp only [processGo, deepest]
    exact ih _ _ _ _ _

/-- Along every `meta_reflection` link of a `processGo` result the level
increases by exactly 1. -/
theorem processGo_links (tclock : ℕ → ℚ) (gen : String → ℕ → String)
    (gas : ℕ) :
    ∀ (th ty : String) (d : ℕ) (wm : WorkingMemory) (st : List Thought),
    linksIncrement (processGo tclock gen gas th ty d wm st).2.2 := by
  induction gas with
  | zero => intro th ty d wm st; trivial
  | succ g ih =>
    intro th ty d wm st
    simp only [processGo, linksIncrement]
    exact ⟨(processGo_root tclock gen g _ _ _ _ _).1, ih _ _ _ _ _⟩

/-- Chaining inside `processGo`: the node `j+1` links below node `j` holds
exactly the generator's answer to the prompt built from node `j`'s
content at depth `d + j`. -/
theorem processGo_chain (tclock : ℕ → ℚ) (gen : String → ℕ → String)
    (gas : ℕ) :
    ∀ (th ty : String) (d : ℕ) (wm : WorkingMemory) (st : List Thought)
      (j : ℕ), j < gas →
    ∃ n1 n2,
      nodeAt (processGo tclock gen gas th ty d wm st).2.2 j = some n1 ∧
      nodeAt (processGo tclock gen gas th ty d wm st).2.2 (j + 1) = some n2 ∧
      n2.content = gen (promptFor (d + j) n1.content) 30 := by
  induction gas with
  | zero => intro th ty d wm st j hj; omega
  | succ g ih =>
    intro th ty d wm st j hj
    cases j with
    | zero =>
      refine ⟨(processGo tclock gen (g+1) th ty d wm st).2.2,
        (processGo tclock gen g (gen (promptFor d th) 30) (nextTypeFor d)
          (d+1) (wm.add ⟨d, th, tclock d, ty⟩ (attention_weight d))
          (st ++ [⟨d, th, tclock d, ty⟩])).2.2, rfl, ?_, ?_⟩
      · simp only [processGo, nodeAt, MetaNode.meta_reflection]
      · have hroot := processGo_root tclock gen (g+1) th ty d wm st
        have hroot2 := processGo_root tclock gen g (gen (promptFor d th) 30)
          (nextTypeFor d) (d+1)
          (wm.add ⟨d, th, tclock d, ty⟩ (attention_weight d))
          (st ++ [⟨d, th, tclock d, ty⟩])
        rw [hroot2.2.1, hroot.2.1, Nat.add_zero]
    | succ i =>
      have hi : i < g := by omega
      rcases ih (gen (promptFor d th) 30) (nextTypeFor d) (d+1)
        (wm.add ⟨d, th, tclock d, ty⟩ (attention_weight d))
        (st ++ [⟨d, th, tclock d, ty⟩]) i hi with ⟨n1, n2, h1, h2, h3⟩
      refine ⟨n1, n2, ?_, ?_, ?_⟩
      · simpa only [processGo, nodeAt, MetaNode.meta_reflection] using h1
      · simpa only [processGo, nodeAt, MetaNode.meta_reflection] using h2
      · rw [show d + (i + 1) = d + 1 + i by omega]
        exact h3

/-- Accumulated side effects of `processGo`: the recorded thoughts are
appended to the stream and folded into working memory with weight
`attention_weight level`. -/
theorem processGo_state (tclock : ℕ → ℚ) (gen : String → ℕ → String)
    (gas : ℕ) :
    ∀ (th ty : String) (d : ℕ) (wm : WorkingMemory) (st : List Thought),
    ∃ rec : List Thought,
      (processGo tclock gen gas th ty d wm st).2.1 = st ++ rec ∧
      rec.map Thought.level = List.range' d gas ∧
      (processGo tclock gen gas th ty d wm st).1 =
        addAll wm (rec.map (fun t => (t, attention_weight t.level))) := by
  induction gas with
  | zero =>
    intro th ty d wm st
    exact ⟨[], by simp [processGo], by simp [List.range'], by
      simp [processGo, addAll]⟩
  | succ g ih =>
    intro th ty d wm st
    rcases ih (gen (promptFor d th) 30) (nextTypeFor d) (d+1)
      (wm.add ⟨d, th, tclock d, ty⟩ (attention_weight d))
      (st ++ [⟨d, th, tclock d, ty⟩]) with ⟨rec, hst, hlev, hwm⟩
    refine ⟨⟨d, th, tclock d, ty⟩ :: rec, ?_, ?_, ?_⟩
    · show (processGo tclock gen g _ _ _ _ _).2.1 = _
      rw [hst, List.append_assoc]
      rfl
    · simp only [List.map_cons, hlev]
      rw [← List.range'_succ]
    · show (processGo tclock gen g _ _ _ _ _).1 = _
      rw [hwm]
      rfl

/-- C2. For every `max_depth = k` and every reflect function, flattening
the result of `process_with_true_recursion` (from depth 0) yields exactly
`k+1` entries with levels `0, 1, ..., k` in order; the deepest node's
`meta_reflection` is `none`; and the level increases by exactly 1 along
each `meta_reflection` link. -/
theorem recursion_depth_bound (k : ℕ) (tclock : ℕ → ℚ)
    (gen : String → ℕ → String) (thought ttype : String)
    (wm : WorkingMemory) (stream : List Thought) :
    (flatten_recursive_results
      (process_with_true_recursion k tclock gen thought ttype 0
        wm stream).2.2).length = k + 1 ∧
    (flatten_recursive_results
      (process_with_true_recursion k tclock gen thought ttype 0
        wm stream).2.2).map (fun p => p.1) = List.range (k + 1) ∧
    (deepest (process_with_true_recursion k tclock gen thought ttype 0
        wm stream).2.2).meta_reflection = none ∧
    linksIncrement (process_with_true_recursion k tclock gen thought ttype 0
        wm stream).2.2 := by
  have hgas : k - 0 = k := Nat.sub_zero k
  have hlev := processGo_flatten_levels tclock gen k thought ttype 0 wm stream
  refine ⟨?_, ?_, ?_, ?_⟩
  · have := congrArg List.length hlev
    rw [List.length_map, List.length_range'] at this
    show (flatten_recursive_results
      (processGo tclock gen (k - 0) thought ttype 0 wm stream).2.2).length = k + 1
    rw [hgas]
    exact this
  · show (flatten_recursive_results
      (processGo tclock gen (k - 0) thought ttype 0 wm stream).2.2).map
        (fun p => p.1) = List.range (k + 1)
    rw [hgas, hlev, List.range_eq_range']
  · show (deepest
      (processGo tclock gen (k - 0) thought ttype 0 wm stream).2.2).meta_reflection = none
    rw [hgas]
    exact processGo_deepest tclock gen k thought ttype 0 wm stream
  · show linksIncrement
      (processGo tclock gen (k - 0) thought ttype 0 wm stream).2.2
    rw [hgas]
    exact processGo_links tclock gen k thought ttype 0 wm stream

/-- C5. At every depth `d < max_depth` the node at position `d+1` of the
returned structure holds exactly the generator's reply to the prompt
derived from the node at position `d`: the input to each recursive call is
the reflection just produced. -/
theorem recursion_chaining (k : ℕ) (tclock : ℕ → ℚ)
    (gen : String → ℕ → String) (thought ttype : String)
    (wm : WorkingMemory) (stream : List Thought) (d : ℕ) (hd : d < k) :
    ∃ n1 n2,
      nodeAt (process_with_true_recursion k tclock gen thought ttype 0
        wm stream).2.2 d = some n1 ∧
      nodeAt (process_with_true_recursion k tclock gen thought ttype 0
        wm stream).2.2 (d + 1) = some n2 ∧
      n2.content = gen (promptFor d n1.content) 30 := by
  have h := processGo_chain tclock gen k thought ttype 0 wm stream d hd
  rw [Nat.zero_add] at h
  exact h

/-- Concrete generator used in witnesses: prefixes the prompt. -/
def tagGen : String → ℕ → String := fun p _ => "R " ++ p

/-- Witness for C5 at `max_depth = 2`, depth `d = 0`. -/
theorem recursion_chaining_witness :
    ∃ n1 n2,
      nodeAt (process_with_true_recursion 2 (fun _ => 0) tagGen "hello"
        "response" 0 (WorkingMemory.empty 7) []).2.2 0 = some n1 ∧
      nodeAt (process_with_true_recursion 2 (fun _ => 0) tagGen "hello"
        "response" 0 (WorkingMemory.empty 7) []).2.2 1 = some n2 ∧
      n2.content = tagGen (promptFor 0 n1.content) 30 :=
  recursion_chaining 2 (fun _ => 0) tagGen "hello" "response"
    (WorkingMemory.empty 7) [] 0 (by decide)

/-- C10. The base case records nothing: one top-level call with
`max_depth = k` appends exactly `k` thoughts, at levels `0 … k-1`, to the
consciousness stream, and inserts exactly those thoughts (with weight
`attention_weight level`) into working memory; no level-`k` thought is
ever recorded, and with `k = 0` nothing is recorded at all. -/
theorem base_case_no_recording (k : ℕ) (tclock : ℕ → ℚ)
    (gen : String → ℕ → String) (thought ttype : String)
    (wm : WorkingMemory) (stream : List Thought) :
    ∃ rec : List Thought,
      (process_with_true_recursion k tclock gen thought ttype 0
        wm stream).2.1 = stream ++ rec ∧
      rec.length = k ∧
      rec.map Thought.level = List.range k ∧
      (∀ t ∈ rec, t.level < k) ∧
      (process_with_true_recursion k tclock gen thought ttype 0
        wm stream).1 =
        addAll wm (rec.map (fun t => (t, attention_weight t.level))) ∧
      (k = 0 →
        (process_with_true_recursion k tclock gen thought ttype 0
          wm stream).2.1 = stream ∧
        (process_with_true_recursion k tclock gen thought ttype 0
          wm stream).1 = wm) := by
  rcases processGo_state tclock gen k thought ttype 0 wm stream
    with ⟨rec, hst, hlev, hwm⟩
  have hgas : k - 0 = k := Nat.sub_zero k
  have hst' : (process_with_true_recursion k tclock gen thought ttype 0
      wm stream).2.1 = stream ++ rec := by
    show (processGo tclock gen (k - 0) thought ttype 0 wm stream).2.1 = _
    rw [hgas]
    exact hst
  have hwm' : (process_with_true_recursion k tclock gen thought ttype 0
      wm stream).1 =
      addAll wm (rec.map (fun t => (t, attention_weight t.level))) := by
    show (processGo tclock gen (k - 0) thought ttype 0 wm stream).1 = _
    rw [hgas]
    exact hwm
  have hlen : rec.length = k := by
    have := congrArg List.length hlev
    rwa [List.length_map, List.length_range'] at this
  have hrange : rec.map Thought.level = List.range k := by
    rw [hlev, List.range_eq_range']
  refine ⟨rec, hst', hlen, hrange, ?_, hwm', ?_⟩
  · intro t ht
    have : t.level ∈ rec.map Thought.level := List.mem_map_of_mem _ ht
    rw [hrange] at this
    exact List.mem_range.mp this
  · intro hk
    subst hk
    have hnil : rec = [] := List.length_eq_zero.mp hlen
    subst hnil
    exact ⟨by simpa using hst', by simpa [addAll] using hwm'⟩

/-! ### Reflection failure (C7) and attention weights (C8) -/

/-- Counterexample to C7: the source wraps the generator call in no
try/except, so a raising generator aborts the whole call with the raised
exception; no fallback placeholder is substituted and no nested result is
returned. -/
theorem reflection_error_cex :
    process_with_true_recursionE 3 (fun _ => 0)
      (fun _ _ => Except.error "boom") "hello" "response" 0
      (WorkingMemory.empty 7) [] = Except.error "boom" := rfl

/-- C7 (amended). If the reflection generator raises while the recursion is
still below `max_depth`, the exception propagates unchanged out of
`process_with_true_recursion`: the call produces no result and substitutes
no fallback. -/
theorem reflection_error_propagates (maxd : ℕ) (tclock : ℕ → ℚ)
    (gen : String → ℕ → Except String String) (thought ttype : String)
    (depth : ℕ) (wm : WorkingMemory) (stream : List Thought) (e : String)
    (hdep : depth < maxd)
    (hgen : gen (promptFor depth thought) 30 = Except.error e) :
    process_with_true_recursionE maxd tclock gen thought ttype depth
      wm stream = Except.error e := by
  obtain ⟨g, hg⟩ : ∃ g, maxd - depth = g + 1 :=
    ⟨maxd - depth - 1, by omega⟩
  show processGoE tclock gen (maxd - depth) thought ttype depth wm stream =
    Except.error e
  rw [hg]
  simp [processGoE, hgen]

/-- Witness for the amended C7 theorem: a generator that always raises. -/
theorem reflection_error_propagates_witness :
    process_with_true_recursionE 3 (fun _ => 0)
      (fun _ _ => Except.error "down") "hi" "response" 0
      (WorkingMemory.empty 7) [] = Except.error "down" :=
  reflection_error_propagates 3 (fun _ => 0)
    (fun _ _ => Except.error "down") "hi" "response" 0
    (WorkingMemory.empty 7) [] "down" (by decide) rfl

/-- Counterexample to C8: in a run with `max_depth = 6` the thoughts
recorded at depths 4 and 5 receive the same attention weight
`max(0.2, 1 - d*0.2) = 0.2`, so the weight is not strictly decreasing over
the reached depths. -/
theorem attention_weight_cex :
    (process_with_true_recursion 6 (fun _ => 0) tagGen "hello" "response" 0
      (WorkingMemory.empty 7) []).1.attention_weights =
      [attention_weight 0, attention_weight 1, attention_weight 2,
        attention_weight 3, attention_weight 4, attention_weight 5] ∧
    attention_weight 4 = attention_weight 5 := by
  refine ⟨rfl, ?_⟩
  show max (0.2 : ℚ) (1 - (4 : ℕ) * 0.2) = max (0.2 : ℚ) (1 - (5 : ℕ) * 0.2)
  norm_num

/-- C8 (amended). The attention weight `max(0.2, 1 - depth*0.2)` is
non-increasing in depth, strictly decreasing as long as the shallower
depth is still above the floor (`d1 < 4`), and never below the floor
`0.2`. -/
theorem attention_weight_antitone (d1 d2 : ℕ) (h : d1 < d2) :
    attention_weight d2 ≤ attention_weight d1 ∧
    (d1 < 4 → attention_weight d2 < attention_weight d1) ∧
    (0.2 : ℚ) ≤ attention_weight d2 := by
  have hcast : (d1 : ℚ) < (d2 : ℚ) := by exact_mod_cast h
  refine ⟨?_, ?_, le_max_left _ _⟩
  · exact max_le_max le_rfl (by linarith)
  · intro h4
    have hd1 : (d1 : ℚ) ≤ 3 := by exact_mod_cast Nat.lt_succ_iff.mp h4
    have hw1 : attention_weight d1 = 1 - (d1 : ℚ) * 0.2 := by
      unfold attention_weight
      exact max_eq_right (by linarith)
    rw [hw1]
    unfold attention_weight
    apply max_lt <;> linarith

/-- Witness for the amended C8 theorem at depths 1 < 2. -/
theorem attention_weight_antitone_witness :
    attention_weight 2 ≤ attention_weight 1 ∧
    (1 < 4 → attention_weight 2 < attention_weight 1) ∧
    (0.2 : ℚ) ≤ attention_weight 2 :=
  attention_weight_antitone 1 2 (by decide)

/-! ### Working memory (C9) -/

/-- The mutating operations of `WorkingMemory` (the readers `get_recent`
and `get_attended` do not touch the state). -/
inductive WmOp where
  | add (t : Thought) (a : ℚ)
  | clearOp

/-- Apply one working-memory operation. -/
def stepWm (wm : WorkingMemory) : WmOp → WorkingMemory
  | .add t a => wm.add t a
  | .clearOp => wm.clearAll

/-- Run a sequence of working-memory operations. -/
def runWm (wm : WorkingMemory) (ops : List WmOp) : WorkingMemory :=
  ops.foldl stepWm wm

/-- One operation preserves the paired-lengths capacity invariant and the
capacity field. -/
theorem stepWm_inv (wm : WorkingMemory) (op : WmOp)
    (h : wm.buffer.length = wm.attention_weights.length ∧
      wm.buffer.length ≤ wm.capacity) :
    (stepWm wm op).buffer.length = (stepWm wm op).attention_weights.length ∧
    (stepWm wm op).buffer.length ≤ (stepWm wm op).capacity ∧
    (stepWm wm op).capacity = wm.capacity := by
  cases op with
  | clearOp => exact ⟨rfl, by simp [stepWm, WorkingMemory.clearAll], rfl⟩
  | add t a =>
    rcases h with ⟨hlen, hcap⟩
    simp only [stepWm, WorkingMemory.add]
    by_cases hover : wm.capacity < (wm.buffer ++ [t]).length
    · rw [if_pos hover]
      refine ⟨?_, ?_, rfl⟩ <;>
        simp only [List.length_drop, List.length_append,
          List.length_singleton, hlen] <;> omega
    · rw [if_neg hover]
      rw [List.length_append, List.length_singleton] at hover
      refine ⟨?_, ?_, rfl⟩ <;>
        simp only [List.length_append, List.length_singleton, hlen] <;> omega

/-- Folding `addAll` over a snoc list is an `add` after `addAll`. -/
theorem addAll_snoc (wm : WorkingMemory) (ps : List (Thought × ℚ))
    (p : Thought × ℚ) :
    addAll wm (ps ++ [p]) = (addAll wm ps).add p.1 p.2 := by
  simp [addAll]

/-- From the empty memory, `addAll` keeps exactly the most recent
`capacity` insertions, in insertion order, in both parallel lists. -/
theorem addAll_buffer (c : ℕ) (hc : 1 ≤ c) (ps : List (Thought × ℚ)) :
    (addAll (WorkingMemory.empty c) ps).buffer =
      (ps.map Prod.fst).drop (ps.length - c) ∧
    (addAll (WorkingMemory.empty c) ps).attention_weights =
      (ps.map Prod.snd).drop (ps.length - c) ∧
    (addAll (WorkingMemory.empty c) ps).capacity = c := by
  induction ps using List.reverseRecOn with
  | nil => refine ⟨?_, ?_, rfl⟩ <;> simp [addAll, WorkingMemory.empty]
  | append_singleton qs p ih =>
    rcases ih with ⟨hb, hw, hcap⟩
    rw [addAll_snoc]
    unfold WorkingMemory.add
    rw [hb, hw, hcap]
    have hmaplen : (qs.map Prod.fst).length = qs.length := List.length_map _ _
    have hmaplen2 : (qs.map Prod.snd).length = qs.length := List.length_map _ _
    by_cases hcase : c ≤ qs.length
    · have hover : c <
          (((qs.map Prod.fst).drop (qs.length - c)) ++ [p.1]).length := by
        rw [List.length_append, List.length_singleton, List.length_drop]
        omega
      rw [if_pos hover]
      refine ⟨?_, ?_, rfl⟩
      · show (((qs.map Prod.fst).drop (qs.length - c)) ++ [p.1]).drop 1 =
          ((qs ++ [p]).map Prod.fst).drop ((qs ++ [p]).length - c)
        rw [List.drop_append_of_le_length
          (by rw [List.length_drop]; omega)]
        rw [List.drop_drop, List.map_append, List.length_append,
          List.length_singleton, List.map_cons, List.map_nil]
        rw [List.drop_append_of_le_length (by rw [hmaplen]; omega)]
        congr 2
        omega
      · show (((qs.map Prod.snd).drop (qs.length - c)) ++ [p.2]).drop 1 =
          ((qs ++ [p]).map Prod.snd).drop ((qs ++ [p]).length - c)
        rw [List.drop_append_of_le_length
          (by rw [List.length_drop]; omega)]
        rw [List.drop_drop, List.map_append, List.length_append,
          List.length_singleton, List.map_cons, List.map_nil]
        rw [List.drop_append_of_le_length (by rw [hmaplen2]; omega)]
        congr 2
        omega
    · have hnover : ¬ (c <
          (((qs.map Prod.fst).drop (qs.length - c)) ++ [p.1]).length) := by
        rw [List.length_append, List.length_singleton, List.length_drop]
        omega
      rw [if_neg hnover]
      have hz : qs.length - c = 0 := by omega
      have hz' : (qs ++ [p]).length - c = 0 := by
        rw [List.length_append, List.length_singleton]
        omega
      refine ⟨?_, ?_, rfl⟩
      · rw [hz, hz', List.map_append, List.map_cons, List.map_nil]
        simp
      · rw [hz, hz', List.map_append, List.map_cons, List.map_nil]
        simp

/-- C9. `WorkingMemory` with `capacity = c ≥ 1` keeps
`len(buffer) = len(attention_weights) ≤ c` under every operation, and
insertion is strict FIFO: after adding `c + n` thoughts the buffer holds
exactly the most recent `c` thoughts in insertion order, each overflow
evicting the oldest entry together with its weight. -/
theorem working_memory_fifo (c : ℕ) (hc : 1 ≤ c) :
    (∀ ops : List WmOp,
      (runWm (WorkingMemory.empty c) ops).buffer.length =
        (runWm (WorkingMemory.empty c) ops).attention_weights.length ∧
      (runWm (WorkingMemory.empty c) ops).buffer.length ≤ c) ∧
    (∀ (ps : List (Thought × ℚ)) (n : ℕ), ps.length = c + n →
      (addAll (WorkingMemory.empty c) ps).buffer =
        (ps.map Prod.fst).drop n ∧
      (addAll (WorkingMemory.empty c) ps).attention_weights =
        (ps.map Prod.snd).drop n) := by
  constructor
  · have key : ∀ (ops : List WmOp) (wm : WorkingMemory),
        (wm.buffer.length = wm.attention_weights.length ∧
          wm.buffer.length ≤ wm.capacity) →
        ((runWm wm ops).buffer.length =
            (runWm wm ops).attention_weights.length ∧
          (runWm wm ops).buffer.length ≤ (runWm wm ops).capacity) ∧
        (runWm wm ops).capacity = wm.capacity := by
      intro ops
      induction ops with
      | nil => intro wm h; exact ⟨h, rfl⟩
      | cons op rest ih =>
        intro wm h
        rcases stepWm_inv wm op h with ⟨h1, h2, h3⟩
        rcases ih (stepWm wm op) ⟨h1, h2⟩ with ⟨hinv, hcap⟩
        exact ⟨hinv, hcap.trans h3⟩
    intro ops
    rcases key ops (WorkingMemory.empty c) ⟨rfl, by simp [WorkingMemory.empty]⟩
      with ⟨⟨h1, h2⟩, h3⟩
    refine ⟨h1, ?_⟩
    rw [h3] at h2
    exact h2
  · intro ps n hlen
    rcases addAll_buffer c hc ps with ⟨hb, hw, _⟩
    rw [hb, hw, hlen]
    constructor <;> congr 1 <;> omega

/-- Witness for C9 at capacity 2. -/
theorem working_memory_fifo_witness :
    (∀ ops : List WmOp,
      (runWm (WorkingMemory.empty 2) ops).buffer.length =
        (runWm (WorkingMemory.empty 2) ops).attention_weights.length ∧
      (runWm (WorkingMemory.empty 2) ops).buffer.length ≤ 2) ∧
    (∀ (ps : List (Thought × ℚ)) (n : ℕ), ps.length = 2 + n →
      (addAll (WorkingMemory.empty 2) ps).buffer =
        (ps.map Prod.fst).drop n ∧
      (addAll (WorkingMemory.empty 2) ps).attention_weights =
        (ps.map Prod.snd).drop n) :=
  working_memory_fifo 2 (by decide)

/-- A concrete information unit used by the workspace witnesses. -/
def uBasic : Information :=
  { source := "p", content := "c", salience := 1, relevance := 1,
    timestamp := 0 }

/-- Witness for C1: one full `process_cycle` then a decay, at capacity 1. -/
theorem workspace_capacity_invariant_witness :
    (runOps (mkWorkspace 1 0.1 0.5)
      [WsOp.cycle 0 [uBasic], WsOp.decay]).workspace_contents.length ≤ 1 :=
  workspace_capacity_invariant 1 0.1 0.5 (by decide)
    [WsOp.cycle 0 [uBasic], WsOp.decay]

/-- A concrete workspace whose pool holds one pending unit. -/
def wsPending : GlobalWorkspace :=
  { capacity := 2, decay_rate := 0.1, competition_threshold := 0.5,
    workspace_contents := [], competition_pool := [uBasic] }

/-- Witness for C3 on a concrete workspace. -/
theorem admission_threshold_witness :
    (competition_cycle 0 wsPending).2 =
      ((sortDesc (wsPending.competition_pool.map (recompute 0))).takeWhile
        (fun i => decide
          (wsPending.competition_threshold ≤ i.activation_level))).take
        (wsPending.capacity - wsPending.workspace_contents.length) :=
  (admission_threshold 0 wsPending (by decide)).1
